import Mathlib

/-!
# Verification of the `ocrreader` analysis pipeline

Shallow embedding of `src/ocrreader.py` (class `OCRProcessor`).  Strings are
modelled as `List Char` restricted to the ASCII behaviour of the Python string
and `re` operations (the OCR engine is configured for English text, and every
keyword, pattern and separator in the program is ASCII).

Embedded operations:
* `clean_text`      — `re.sub(r'\n+','\n')`, `re.sub(r' +',' ')`, `str.strip()`
* `detect_content_type` — the keyword / date-pattern / email-pattern cascade
* `analyze_content` — statistics, stop-word filtering, `Counter.most_common(10)`,
                      report assembly
* `extract_text_from_pdf` — per-page `--- Page N ---` concatenation
* `process_file`    — orchestration over an abstract file-system / collaborator
                      environment
-/

/-- Strings of the embedded program. -/
abbrev Str := List Char

/-- ASCII lower-casing of one character, the model of Python `str.lower()`
on the ASCII texts this program manipulates. -/
def lowerChar (c : Char) : Char :=
  if 'A' ≤ c ∧ c ≤ 'Z' then Char.ofNat (c.toNat + 32) else c

/-- `text.lower()`. -/
def lowerStr (s : Str) : Str := s.map lowerChar

/-- Python whitespace characters stripped by `str.strip()` (ASCII). -/
def isSpaceChar (c : Char) : Bool :=
  c = ' ' ∨ c = '\t' ∨ c = '\n' ∨ c = '\x0d' ∨ c = '\x0b' ∨ c = '\x0c'

/-- `needle in hay` for Python strings: contiguous-substring test. -/
def containsSub (hay needle : Str) : Bool :=
  needle.isPrefixOf hay ||
    match hay with
    | [] => false
    | _ :: t => containsSub t needle

/-- Collapse every maximal run of the character `c` to a single `c`:
the model of `re.sub(c+, c, text)`. -/
def collapseRuns (c : Char) : Str → Str
  | [] => []
  | [a] => [a]
  | a :: b :: rest =>
    if a = c ∧ b = c then collapseRuns c (b :: rest)
    else a :: collapseRuns c (b :: rest)

/-- `str.strip()`: drop leading and trailing whitespace. -/
def stripStr (s : Str) : Str :=
  ((s.dropWhile isSpaceChar).reverse.dropWhile isSpaceChar).reverse

/-- `OCRProcessor.clean_text`: collapse newline runs, collapse space runs,
then strip. -/
def clean_text (text : Str) : Str :=
  stripStr (collapseRuns ' ' (collapseRuns '\n' text))

-- Basic facts about `collapseRuns` and `stripStr`.

theorem collapseRuns_nil (c : Char) : collapseRuns c [] = [] := by
  simp [collapseRuns]

theorem collapseRuns_singleton (c a : Char) : collapseRuns c [a] = [a] := by
  simp [collapseRuns]

theorem collapseRuns_length_le (c : Char) (l : Str) :
    (collapseRuns c l).length ≤ l.length := by
  induction l using collapseRuns.induct c with
  | case1 => simp [collapseRuns]
  | case2 a => simp [collapseRuns]
  | case3 a b rest h ih =>
    rw [collapseRuns, if_pos h]
    exact le_trans ih (by simp)
  | case4 a b rest h ih =>
    rw [collapseRuns, if_neg h]
    simpa using ih

theorem collapseRuns_cons₂ (c a b : Char) (rest : Str) :
    collapseRuns c (a :: b :: rest)
      = if a = c ∧ b = c then collapseRuns c (b :: rest)
        else a :: collapseRuns c (b :: rest) := by
  rw [collapseRuns]

theorem stripStr_length_le (s : Str) : (stripStr s).length ≤ s.length := by
  unfold stripStr
  calc ((s.dropWhile isSpaceChar).reverse.dropWhile isSpaceChar).reverse.length
      = ((s.dropWhile isSpaceChar).reverse.dropWhile isSpaceChar).length := by
        simp
    _ ≤ (s.dropWhile isSpaceChar).reverse.length :=
        (List.dropWhile_suffix _).sublist.length_le
    _ = (s.dropWhile isSpaceChar).length := by simp
    _ ≤ s.length := (List.dropWhile_suffix _).sublist.length_le

/-- The "no two adjacent copies of `c`" invariant, as an adjacency chain. -/
abbrev NoPair (c : Char) (l : Str) : Prop :=
  List.Chain' (fun a b => ¬(a = c ∧ b = c)) l

theorem noPair_iff_no_double (c : Char) (l : Str) :
    NoPair c l ↔ ¬ ([c, c] <:+: l) := by
  constructor
  · intro h hinf
    have hpair := List.Chain'.infix h hinf
    simp [List.chain'_pair] at hpair
  · intro h
    induction l with
    | nil => exact List.chain'_nil
    | cons a t ih =>
      cases t with
      | nil => exact List.chain'_singleton a
      | cons b t' =>
        refine List.chain'_cons.mpr ⟨?_, ?_⟩
        · rintro ⟨rfl, rfl⟩
          exact h ⟨[], t', by simp⟩
        · refine ih fun hinf => h ?_
          exact List.infix_cons hinf

theorem collapseRuns_cons (c : Char) (xs : Str) :
    ∀ x, ∃ ys, collapseRuns c (x :: xs) = x :: ys := by
  induction xs with
  | nil => exact fun x => ⟨[], by simp [collapseRuns]⟩
  | cons a t ih =>
    intro x
    rw [collapseRuns_cons₂]
    by_cases h : x = c ∧ a = c
    · obtain ⟨ys, hy⟩ := ih a
      refine ⟨ys, ?_⟩
      rw [if_pos h, hy, h.2, ← h.1]
    · exact ⟨collapseRuns c (a :: t), by rw [if_neg h]⟩

theorem noPair_collapseRuns (c : Char) (l : Str) : NoPair c (collapseRuns c l) := by
  induction l using collapseRuns.induct c with
  | case1 => rw [collapseRuns_nil]; exact List.chain'_nil
  | case2 a => rw [collapseRuns_singleton]; exact List.chain'_singleton a
  | case3 a b rest h ih =>
    rw [collapseRuns_cons₂, if_pos h]; exact ih
  | case4 a b rest h ih =>
    rw [collapseRuns_cons₂, if_neg h]
    obtain ⟨ys, hy⟩ := collapseRuns_cons c rest b
    rw [hy] at ih ⊢
    exact List.chain'_cons.mpr ⟨h, ih⟩

theorem collapseRuns_eq_self (c : Char) (l : Str) (h : NoPair c l) :
    collapseRuns c l = l := by
  induction l using collapseRuns.induct c with
  | case1 => simp [collapseRuns]
  | case2 a => simp [collapseRuns]
  | case3 a b rest hab ih =>
    exact absurd hab (List.chain'_cons.mp h).1
  | case4 a b rest hab ih =>
    rw [collapseRuns_cons₂, if_neg hab, ih (List.chain'_cons.mp h).2]

theorem noPair_collapseRuns_of_ne (c d : Char) (l : Str)
    (h : NoPair d l) : NoPair d (collapseRuns c l) := by
  induction l using collapseRuns.induct c with
  | case1 => rw [collapseRuns_nil]; exact List.chain'_nil
  | case2 a => rw [collapseRuns_singleton]; exact List.chain'_singleton a
  | case3 a b rest hab ih =>
    rw [collapseRuns_cons₂, if_pos hab]
    exact ih (List.chain'_cons.mp h).2
  | case4 a b rest hab ih =>
    rw [collapseRuns_cons₂, if_neg hab]
    have h2 := List.chain'_cons.mp h
    have hrec := ih h2.2
    obtain ⟨ys, hy⟩ := collapseRuns_cons c rest b
    rw [hy] at hrec ⊢
    exact List.chain'_cons.mpr ⟨h2.1, hrec⟩

theorem head?_dropWhile_not (p : Char → Bool) (l : Str) :
    ∀ a, (l.dropWhile p).head? = some a → p a = false := by
  induction l with
  | nil => intro a h; simp [List.dropWhile] at h
  | cons x xs ih =>
    intro a h
    by_cases hx : p x
    · rw [List.dropWhile_cons_of_pos hx] at h
      exact ih a h
    · rw [List.dropWhile_cons_of_neg hx] at h
      simp at h
      subst h
      simpa using hx

theorem stripStr_isPre_dropWhile (s : Str) :
    stripStr s <+: s.dropWhile isSpaceChar := by
  unfold stripStr
  set u := s.dropWhile isSpaceChar with hu
  conv_rhs => rw [show u = u.reverse.reverse by simp]
  exact List.reverse_prefix.mpr (List.dropWhile_suffix _)

theorem stripStr_infixOf (s : Str) : stripStr s <:+: s :=
  List.IsInfix.trans (List.IsPrefix.isInfix (stripStr_isPre_dropWhile s))
    (List.IsSuffix.isInfix (List.dropWhile_suffix _))

theorem stripStr_head? (s : Str) :
    ∀ a, (stripStr s).head? = some a → isSpaceChar a = false := by
  intro a h
  obtain ⟨t, ht⟩ := stripStr_isPre_dropWhile s
  have : (s.dropWhile isSpaceChar).head? = some a := by
    rw [← ht]
    cases hs : stripStr s with
    | nil => rw [hs] at h; simp at h
    | cons b bs =>
      rw [hs] at h
      simp at h
      simp [hs, h]
  exact head?_dropWhile_not _ _ a this

theorem stripStr_getLast? (s : Str) :
    ∀ a, (stripStr s).getLast? = some a → isSpaceChar a = false := by
  intro a h
  unfold stripStr at h
  rw [List.getLast?_reverse] at h
  exact head?_dropWhile_not _ _ a h

theorem dropWhile_eq_self_of_head (p : Char → Bool) (l : Str)
    (h : ∀ a, l.head? = some a → p a = false) : l.dropWhile p = l := by
  cases l with
  | nil => simp
  | cons x xs =>
    have := h x (by simp)
    rw [List.dropWhile_cons_of_neg (by simp [this])]

theorem stripStr_eq_self (l : Str)
    (h1 : ∀ a, l.head? = some a → isSpaceChar a = false)
    (h2 : ∀ a, l.getLast? = some a → isSpaceChar a = false) :
    stripStr l = l := by
  unfold stripStr
  rw [dropWhile_eq_self_of_head _ _ h1]
  rw [dropWhile_eq_self_of_head _ _ (by
    intro a ha
    rw [List.head?_reverse] at ha
    exact h2 a ha)]
  simp

theorem noPair_clean_text_newline (x : Str) : NoPair '\n' (clean_text x) :=
  List.Chain'.infix
    (noPair_collapseRuns_of_ne ' ' '\n' _ (noPair_collapseRuns '\n' x))
    (stripStr_infixOf _)

theorem noPair_clean_text_space (x : Str) : NoPair ' ' (clean_text x) :=
  List.Chain'.infix (noPair_collapseRuns ' ' (collapseRuns '\n' x))
    (stripStr_infixOf _)

theorem clean_text_head? (x : Str) :
    ∀ a, (clean_text x).head? = some a → isSpaceChar a = false :=
  stripStr_head? _

theorem clean_text_getLast? (x : Str) :
    ∀ a, (clean_text x).getLast? = some a → isSpaceChar a = false :=
  stripStr_getLast? _

/-- **C4.** Normalization is idempotent: `clean_text (clean_text x) = clean_text x`
for every string `x`. -/
theorem clean_text_idempotent (x : Str) :
    clean_text (clean_text x) = clean_text x := by
  have hn := noPair_clean_text_newline x
  have hs := noPair_clean_text_space x
  show stripStr (collapseRuns ' ' (collapseRuns '\n' (clean_text x))) = clean_text x
  rw [collapseRuns_eq_self '\n' _ hn, collapseRuns_eq_self ' ' _ hs]
  exact stripStr_eq_self _ (clean_text_head? x) (clean_text_getLast? x)

/-- **C5.** `clean_text` never increases length; its result contains no two
consecutive newlines, no two consecutive spaces, and neither starts nor ends
with a whitespace character. -/
theorem clean_text_normal_form (x : Str) :
    (clean_text x).length ≤ x.length ∧
    ¬ (['\n', '\n'] <:+: clean_text x) ∧
    ¬ ([' ', ' '] <:+: clean_text x) ∧
    ((clean_text x).head?.all fun a => !(isSpaceChar a)) = true ∧
    ((clean_text x).getLast?.all fun a => !(isSpaceChar a)) = true := by
  refine ⟨?_, ?_, ?_, ?_, ?_⟩
  · calc (clean_text x).length
        ≤ (collapseRuns ' ' (collapseRuns '\n' x)).length := stripStr_length_le _
      _ ≤ (collapseRuns '\n' x).length := collapseRuns_length_le _ _
      _ ≤ x.length := collapseRuns_length_le _ _
  · exact (noPair_iff_no_double _ _).mp (noPair_clean_text_newline x)
  · exact (noPair_iff_no_double _ _).mp (noPair_clean_text_space x)
  · cases h : (clean_text x).head? with
    | none => simp
    | some a => simpa using clean_text_head? x a h
  · cases h : (clean_text x).getLast? with
    | none => simp
    | some a => simpa using clean_text_getLast? x a h

theorem toNat_ofNat_small (n : Nat) (h : n < 55296) : (Char.ofNat n).toNat = n := by
  unfold Char.ofNat
  rw [dif_pos (Or.inl h)]
  unfold Char.ofNatAux Char.toNat
  simp [UInt32.toNat, BitVec.toNat_ofNatLt]

theorem toNat_lowerChar (c : Char) :
    (lowerChar c).toNat =
      if 'A' ≤ c ∧ c ≤ 'Z' then c.toNat + 32 else c.toNat := by
  unfold lowerChar
  split
  · rename_i h
    have h90 : c.toNat ≤ 90 := h.2
    exact toNat_ofNat_small _ (by omega)
  · rfl

theorem le_char_iff_toNat {a c : Char} : a ≤ c ↔ a.toNat ≤ c.toNat := Iff.rfl

-- Character classes of the two regular expressions in `detect_content_type`,
-- written over ASCII codes (`re` with `str` patterns; the program's inputs are
-- OCR output in English).  `\w`/`\b` word characters are `[A-Za-z0-9_]`.

/-- `\d` -/
def isAsciiDigit (c : Char) : Bool :=
  decide (48 ≤ c.toNat ∧ c.toNat ≤ 57)

/-- `[a-zA-Z]` -/
def isAsciiLetter (c : Char) : Bool :=
  decide ((97 ≤ c.toNat ∧ c.toNat ≤ 122) ∨ (65 ≤ c.toNat ∧ c.toNat ≤ 90))

/-- `\w`, the word characters deciding `\b` boundaries. -/
def isWordChar (c : Char) : Bool :=
  decide ((97 ≤ c.toNat ∧ c.toNat ≤ 122) ∨ (65 ≤ c.toNat ∧ c.toNat ≤ 90) ∨
    (48 ≤ c.toNat ∧ c.toNat ≤ 57) ∨ c.toNat = 95)

/-- `[\/\-]`, the date separators `/` and `-`. -/
def isSepChar (c : Char) : Bool :=
  decide (c.toNat = 47 ∨ c.toNat = 45)

/-- `[A-Za-z0-9._%+-]`, the email local part. -/
def isLocalChar (c : Char) : Bool :=
  decide ((97 ≤ c.toNat ∧ c.toNat ≤ 122) ∨ (65 ≤ c.toNat ∧ c.toNat ≤ 90) ∨
    (48 ≤ c.toNat ∧ c.toNat ≤ 57) ∨
    c.toNat = 46 ∨ c.toNat = 95 ∨ c.toNat = 37 ∨ c.toNat = 43 ∨ c.toNat = 45)

/-- `[A-Za-z0-9.-]`, the email domain. -/
def isDomainChar (c : Char) : Bool :=
  decide ((97 ≤ c.toNat ∧ c.toNat ≤ 122) ∨ (65 ≤ c.toNat ∧ c.toNat ≤ 90) ∨
    (48 ≤ c.toNat ∧ c.toNat ≤ 57) ∨ c.toNat = 46 ∨ c.toNat = 45)

/-- `[A-Z|a-z]`, the email TLD class (the `|` is a literal member). -/
def isTldChar (c : Char) : Bool :=
  decide ((97 ≤ c.toNat ∧ c.toNat ≤ 122) ∨ (65 ≤ c.toNat ∧ c.toNat ≤ 90) ∨
    c.toNat = 124)

/-- literal `@` -/
def isAtChar (c : Char) : Bool := decide (c.toNat = 64)

/-- literal `.` -/
def isDotChar (c : Char) : Bool := decide (c.toNat = 46)

/-- Does the character at index `i` exist and satisfy `p`? -/
def classAt (p : Char → Bool) (s : Str) (i : Nat) : Bool :=
  match s[i]? with
  | some c => p c
  | none => false

/-- Do the `n` characters starting at index `i` all exist and satisfy `p`? -/
def classRun (p : Char → Bool) (s : Str) (i n : Nat) : Bool :=
  (List.range n).all fun k => classAt p s (i + k)

/-- `\b`: a word boundary before index `i` (positions `0` … `s.length`). -/
def boundaryAt (s : Str) (i : Nat) : Bool :=
  (decide (0 < i) && classAt isWordChar s (i - 1)) != classAt isWordChar s i

/-- A match of `\b\d{1,2}[\/\-]\d{1,2}[\/\-]\d{2,4}\b` starting at index `i`
(existential over the quantifier choices, which is what `re.search`'s
backtracking decides). -/
def dateAt (s : Str) (i : Nat) : Bool :=
  boundaryAt s i &&
  ([1, 2].any fun d1 =>
    classRun isAsciiDigit s i d1 && classAt isSepChar s (i + d1) &&
    ([1, 2].any fun d2 =>
      classRun isAsciiDigit s (i + d1 + 1) d2 &&
      classAt isSepChar s (i + d1 + 1 + d2) &&
      ([2, 3, 4].any fun y =>
        classRun isAsciiDigit s (i + d1 + d2 + 2) y &&
        boundaryAt s (i + d1 + d2 + 2 + y))))

/-- `re.search(r'\b\d{1,2}[\/\-]\d{1,2}[\/\-]\d{2,4}\b', s)` as a Bool. -/
def dateSearch (s : Str) : Bool :=
  (List.range (s.length + 1)).any (dateAt s)

/-- A match of `\b[A-Za-z0-9._%+-]+@[A-Za-z0-9.-]+\.[A-Z|a-z]{2,}\b` starting
at index `i`, existential over the lengths of the three `+`/`{2,}` parts. -/
def emailAt (s : Str) (i : Nat) : Bool :=
  boundaryAt s i &&
  ((List.range (s.length + 1)).any fun l =>
    decide (1 ≤ l) && classRun isLocalChar s i l && classAt isAtChar s (i + l) &&
    ((List.range (s.length + 1)).any fun m =>
      decide (1 ≤ m) && classRun isDomainChar s (i + l + 1) m &&
      classAt isDotChar s (i + l + 1 + m) &&
      ((List.range (s.length + 1)).any fun k =>
        decide (2 ≤ k) && classRun isTldChar s (i + l + 2 + m) k &&
        boundaryAt s (i + l + 2 + m + k))))

/-- `re.search(r'\b[A-Za-z0-9._%+-]+@[A-Za-z0-9.-]+\.[A-Z|a-z]{2,}\b', s)`. -/
def emailSearch (s : Str) : Bool :=
  (List.range (s.length + 1)).any (emailAt s)

def financial_keywords : List Str :=
  ["invoice".data, "bill".data, "amount".data, "total".data, "payment".data]

def letter_keywords : List Str :=
  ["dear".data, "sincerely".data, "regards".data, "letter".data]

def recipe_keywords : List Str :=
  ["recipe".data, "ingredients".data, "instructions".data, "cooking".data]

def article_keywords : List Str :=
  ["article".data, "paragraph".data, "section".data, "chapter".data]

def menu_keywords : List Str :=
  ["menu".data, "price".data, "restaurant".data, "food".data]

/-- `any(word in text_lower for word in ws)`. -/
def containsAny (tl : Str) (ws : List Str) : Bool :=
  ws.any fun w => containsSub tl w

/-- `OCRProcessor.detect_content_type`, translated clause for clause: the five
keyword rules test the lowercased text, the two `re.search` rules test the
original text. -/
def detect_content_type (text : Str) : Str :=
  let text_lower := lowerStr text
  if containsAny text_lower financial_keywords then
    "Financial Document/Invoice".data
  else if containsAny text_lower letter_keywords then
    "Letter/Correspondence".data
  else if containsAny text_lower recipe_keywords then
    "Recipe".data
  else if containsAny text_lower article_keywords then
    "Article/Document".data
  else if containsAny text_lower menu_keywords then
    "Menu".data
  else if dateSearch text then
    "Document with Dates".data
  else if emailSearch text then
    "Document with Email Addresses".data
  else
    "General Text Document".data

/-- The classifier of the specification: an ordered list of
(predicate, label) rules, each applied to the lowercased text. -/
def specRules : List ((Str → Bool) × Str) :=
  [(fun tl => containsAny tl financial_keywords, "Financial Document/Invoice".data),
   (fun tl => containsAny tl letter_keywords, "Letter/Correspondence".data),
   (fun tl => containsAny tl recipe_keywords, "Recipe".data),
   (fun tl => containsAny tl article_keywords, "Article/Document".data),
   (fun tl => containsAny tl menu_keywords, "Menu".data),
   (fun tl => dateSearch tl, "Document with Dates".data),
   (fun tl => emailSearch tl, "Document with Email Addresses".data)]

/-- First-match evaluation of an ordered rule list, defaulting to
`General Text Document`. -/
def firstMatchLabel : List ((Str → Bool) × Str) → Str → Str
  | [], _ => "General Text Document".data
  | r :: rs, tl => if r.1 tl then r.2 else firstMatchLabel rs tl

/-- The specification's classifier: evaluate the seven rules in priority order
against the lowercased text, return the first match, else GeneralText. -/
def classifySpec (text : Str) : Str :=
  firstMatchLabel specRules (lowerStr text)

-- The two patterns' character classes are closed under ASCII lower-casing, so
-- the `re.search` tests give the same answer on the text and on its
-- lowercased form.

theorem isAsciiDigit_lowerChar (c : Char) :
    isAsciiDigit (lowerChar c) = isAsciiDigit c := by
  simp only [isAsciiDigit, toNat_lowerChar, le_char_iff_toNat]
  split <;> [skip; rfl]
  rename_i h
  have h1 : 65 ≤ c.toNat := h.1
  have h2 : c.toNat ≤ 90 := h.2
  simp only [decide_eq_decide]
  omega

theorem isWordChar_lowerChar (c : Char) :
    isWordChar (lowerChar c) = isWordChar c := by
  simp only [isWordChar, toNat_lowerChar, le_char_iff_toNat]
  split <;> [skip; rfl]
  rename_i h
  have h1 : 65 ≤ c.toNat := h.1
  have h2 : c.toNat ≤ 90 := h.2
  simp only [decide_eq_decide]
  omega

theorem isSepChar_lowerChar (c : Char) :
    isSepChar (lowerChar c) = isSepChar c := by
  simp only [isSepChar, toNat_lowerChar, le_char_iff_toNat]
  split <;> [skip; rfl]
  rename_i h
  have h1 : 65 ≤ c.toNat := h.1
  have h2 : c.toNat ≤ 90 := h.2
  simp only [decide_eq_decide]
  omega

theorem isLocalChar_lowerChar (c : Char) :
    isLocalChar (lowerChar c) = isLocalChar c := by
  simp only [isLocalChar, toNat_lowerChar, le_char_iff_toNat]
  split <;> [skip; rfl]
  rename_i h
  have h1 : 65 ≤ c.toNat := h.1
  have h2 : c.toNat ≤ 90 := h.2
  simp only [decide_eq_decide]
  omega

theorem isDomainChar_lowerChar (c : Char) :
    isDomainChar (lowerChar c) = isDomainChar c := by
  simp only [isDomainChar, toNat_lowerChar, le_char_iff_toNat]
  split <;> [skip; rfl]
  rename_i h
  have h1 : 65 ≤ c.toNat := h.1
  have h2 : c.toNat ≤ 90 := h.2
  simp only [decide_eq_decide]
  omega

theorem isTldChar_lowerChar (c : Char) :
    isTldChar (lowerChar c) = isTldChar c := by
  simp only [isTldChar, toNat_lowerChar, le_char_iff_toNat]
  split <;> [skip; rfl]
  rename_i h
  have h1 : 65 ≤ c.toNat := h.1
  have h2 : c.toNat ≤ 90 := h.2
  simp only [decide_eq_decide]
  omega

theorem isAtChar_lowerChar (c : Char) :
    isAtChar (lowerChar c) = isAtChar c := by
  simp only [isAtChar, toNat_lowerChar, le_char_iff_toNat]
  split <;> [skip; rfl]
  rename_i h
  have h1 : 65 ≤ c.toNat := h.1
  have h2 : c.toNat ≤ 90 := h.2
  simp only [decide_eq_decide]
  omega

theorem isDotChar_lowerChar (c : Char) :
    isDotChar (lowerChar c) = isDotChar c := by
  simp only [isDotChar, toNat_lowerChar, le_char_iff_toNat]
  split <;> [skip; rfl]
  rename_i h
  have h1 : 65 ≤ c.toNat := h.1
  have h2 : c.toNat ≤ 90 := h.2
  simp only [decide_eq_decide]
  omega

theorem lowerStr_length (s : Str) : (lowerStr s).length = s.length := by
  simp [lowerStr]

theorem classAt_lower {p : Char → Bool} (hp : ∀ c, p (lowerChar c) = p c)
    (s : Str) (i : Nat) : classAt p (lowerStr s) i = classAt p s i := by
  unfold classAt lowerStr
  rw [List.getElem?_map]
  cases s[i]? with
  | none => rfl
  | some c => exact hp c

theorem classRun_lower {p : Char → Bool} (hp : ∀ c, p (lowerChar c) = p c)
    (s : Str) (i n : Nat) : classRun p (lowerStr s) i n = classRun p s i n := by
  unfold classRun
  simp only [classAt_lower hp]

theorem boundaryAt_lower (s : Str) (i : Nat) :
    boundaryAt (lowerStr s) i = boundaryAt s i := by
  unfold boundaryAt
  simp only [classAt_lower isWordChar_lowerChar]

theorem dateAt_lower (s : Str) (i : Nat) : dateAt (lowerStr s) i = dateAt s i := by
  unfold dateAt
  simp only [boundaryAt_lower, classRun_lower isAsciiDigit_lowerChar,
    classAt_lower isSepChar_lowerChar]

theorem dateSearch_lower (s : Str) : dateSearch (lowerStr s) = dateSearch s := by
  unfold dateSearch
  rw [lowerStr_length, funext (dateAt_lower s)]

theorem emailAt_lower (s : Str) (i : Nat) : emailAt (lowerStr s) i = emailAt s i := by
  unfold emailAt
  simp only [boundaryAt_lower, lowerStr_length,
    classRun_lower isLocalChar_lowerChar, classRun_lower isDomainChar_lowerChar,
    classRun_lower isTldChar_lowerChar, classAt_lower isAtChar_lowerChar,
    classAt_lower isDotChar_lowerChar]

theorem emailSearch_lower (s : Str) : emailSearch (lowerStr s) = emailSearch s := by
  unfold emailSearch
  rw [lowerStr_length, funext (emailAt_lower s)]

/-- **C1.** `detect_content_type` is exactly first-match evaluation of the
seven rules in the spec's priority order against the lowercased text,
defaulting to the GeneralText label; in particular
`"invoice dated 01/02/2020"` is classified as a financial document, not as a
document with dates. -/
theorem detect_content_type_priority :
    (∀ t : Str, detect_content_type t = classifySpec t) ∧
    detect_content_type "invoice dated 01/02/2020".data
      = "Financial Document/Invoice".data := by
  constructor
  · intro t
    unfold detect_content_type classifySpec specRules
    simp only [firstMatchLabel, dateSearch_lower, emailSearch_lower]
  · decide

/-- **C9.** Keyword matching is substring containment, not word-boundary
matching: any text whose lowercased form contains `total` — for instance
inside the longer word `totally` — triggers the FinancialDocument rule. -/
theorem detect_substring_total :
    (∀ t : Str, containsSub (lowerStr t) "total".data = true →
      detect_content_type t = "Financial Document/Invoice".data) ∧
    detect_content_type "It was totally fine".data
      = "Financial Document/Invoice".data := by
  constructor
  · intro t h
    have hf : containsAny (lowerStr t) financial_keywords = true :=
      List.any_eq_true.mpr ⟨"total".data, by simp [financial_keywords], h⟩
    unfold detect_content_type
    simp only [hf, if_true]
  · decide

/-- Witness for C9 at the concrete input `"totally"`. -/
theorem detect_substring_total_witness :
    containsSub (lowerStr "totally".data) "total".data = true ∧
    detect_content_type "totally".data = "Financial Document/Invoice".data :=
  ⟨by decide, detect_substring_total.1 "totally".data (by decide)⟩

-- Tokenization: `re.findall(r'\b[a-zA-Z]+\b', text.lower())`.

/-- Does the string start with a word character (`\w`)? -/
def headIsWord : Str → Bool
  | [] => false
  | c :: _ => isWordChar c

/-- Backtracking over the trailing `\b` of `\b[a-zA-Z]+\b`: `pre` is the
reversed run of letters consumed greedily, `post` the remainder.  Give back
letters one at a time until the boundary holds (the next character is not a
word character), or fail. -/
def shrink : Str → Str → Option (Str × Str)
  | [], _ => none
  | a :: pre', post =>
    if headIsWord post then shrink pre' (a :: post)
    else some (a :: pre', post)

theorem takeWhile_dropWhile_length (p : Char → Bool) (l : Str) :
    (l.takeWhile p).length + (l.dropWhile p).length = l.length := by
  rw [← List.length_append, List.takeWhile_append_dropWhile]

theorem shrink_some_length :
    ∀ pre post q r, shrink pre post = some (q, r) →
      q.length + r.length = pre.length + post.length ∧ 1 ≤ q.length := by
  intro pre
  induction pre with
  | nil => intro post q r h; simp [shrink] at h
  | cons a pre' ih =>
    intro post q r h
    rw [shrink] at h
    by_cases hw : headIsWord post = true
    · rw [if_pos hw] at h
      obtain ⟨h1, h2⟩ := ih (a :: post) q r h
      simp only [List.length_cons] at h1 ⊢
      exact ⟨by omega, h2⟩
    · rw [if_neg hw] at h
      simp only [Option.some.injEq, Prod.mk.injEq] at h
      obtain ⟨rfl, rfl⟩ := h
      simp

/-- The scan loop of `re.findall(r'\b[a-zA-Z]+\b', s)`.  `pw` records whether
the character before the current position is a word character (so `\b` holds
at the current position iff `pw` disagrees with the wordness of the next
character).  At each position: if `\b` holds and a letter follows, match
greedily and backtrack the trailing `\b` with `shrink`; emit the match and
resume after it, else advance one position. -/
def scanAux (pw : Bool) : Str → List Str
  | [] => []
  | c :: cs =>
    if isAsciiLetter c && !pw then
      match hs : shrink (c :: cs.takeWhile isAsciiLetter).reverse
          (cs.dropWhile isAsciiLetter) with
      | some (q, r) => q.reverse :: scanAux true r
      | none => scanAux (isWordChar c) cs
    else scanAux (isWordChar c) cs
termination_by s => s.length
decreasing_by
  · obtain ⟨h1, h2⟩ := shrink_some_length _ _ _ _ hs
    simp only [List.length_reverse, List.length_cons] at h1
    simp only [List.length_cons]
    nth_rewrite 2 [← takeWhile_dropWhile_length isAsciiLetter]
    omega
  · simp only [List.length_cons]; omega
  · simp only [List.length_cons]; omega

/-- `re.findall(r'\b[a-zA-Z]+\b', s)`: scan from position 0, which has no
preceding character. -/
def findWords (s : Str) : List Str := scanAux false s

/-- Maximal runs of characters satisfying `p`, in order of occurrence. -/
def runsBy (p : Char → Bool) : Str → List Str
  | [] => []
  | c :: cs =>
    if p c then (c :: cs.takeWhile p) :: runsBy p (cs.dropWhile p)
    else runsBy p cs
termination_by l => l.length
decreasing_by
  · simp only [List.length_cons]
    exact Nat.lt_succ_of_le (List.Sublist.length_le (List.IsSuffix.sublist
      (List.dropWhile_suffix p)))
  · simp

theorem headIsWord_nil : headIsWord [] = false := rfl

theorem headIsWord_cons (c : Char) (cs : Str) :
    headIsWord (c :: cs) = isWordChar c := rfl

theorem isWordChar_of_letter {c : Char} (h : isAsciiLetter c = true) :
    isWordChar c = true := by
  simp only [isAsciiLetter, decide_eq_true_eq] at h
  simp only [isWordChar, decide_eq_true_eq]
  omega

theorem not_letter_of_not_word {c : Char} (h : isWordChar c = false) :
    isAsciiLetter c = false := by
  cases hl : isAsciiLetter c with
  | false => rfl
  | true => rw [isWordChar_of_letter hl] at h; cases h

theorem dropWhile_word_eq_self {t : Str} (h : headIsWord t = false) :
    t.dropWhile isWordChar = t := by
  cases t with
  | nil => rfl
  | cons c cs =>
    rw [headIsWord_cons] at h
    rw [List.dropWhile_cons_of_neg (by simp [h])]

theorem all_takeWhile_self (p : Char → Bool) (l : Str) :
    (l.takeWhile p).all p = true := by
  induction l with
  | nil => rfl
  | cons c cs ih =>
    by_cases h : p c
    · rw [List.takeWhile_cons_of_pos h]
      simp [h, ih]
    · rw [List.takeWhile_cons_of_neg h]
      rfl

theorem shrink_none_of_words {pre : Str} :
    ∀ post, (∀ a ∈ pre, isWordChar a = true) → headIsWord post = true →
      shrink pre post = none := by
  induction pre with
  | nil => intro post _ _; rfl
  | cons a pre' ih =>
    intro post hmem hpost
    rw [shrink, if_pos hpost]
    refine ih (a :: post) (fun b hb => hmem b (List.mem_cons_of_mem a hb)) ?_
    rw [headIsWord_cons]
    exact hmem a (List.mem_cons_self a pre')

theorem shrink_cons_of_boundary {a : Char} {pre' post : Str}
    (h : headIsWord post = false) :
    shrink (a :: pre') post = some (a :: pre', post) := by
  rw [shrink, if_neg (by simp [h])]

/-- If the first non-letter character of `cs` (if any) is not a word
character, then taking/dropping word characters is the same as
taking/dropping letters. -/
theorem takeWhile_word_eq_letter {cs : Str}
    (h : headIsWord (cs.dropWhile isAsciiLetter) = false) :
    cs.takeWhile isWordChar = cs.takeWhile isAsciiLetter ∧
    cs.dropWhile isWordChar = cs.dropWhile isAsciiLetter := by
  induction cs with
  | nil => exact ⟨rfl, rfl⟩
  | cons c cs' ih =>
    by_cases hl : isAsciiLetter c = true
    · rw [List.dropWhile_cons_of_pos hl] at h
      obtain ⟨h1, h2⟩ := ih h
      rw [List.takeWhile_cons_of_pos hl,
        List.takeWhile_cons_of_pos (isWordChar_of_letter hl),
        List.dropWhile_cons_of_pos hl,
        List.dropWhile_cons_of_pos (isWordChar_of_letter hl), h1, h2]
      exact ⟨rfl, rfl⟩
    · rw [Bool.not_eq_true] at hl
      rw [List.dropWhile_cons_of_neg (by simp [hl]), headIsWord_cons] at h
      rw [List.takeWhile_cons_of_neg (by simp [h]),
        List.takeWhile_cons_of_neg (by simp [hl]),
        List.dropWhile_cons_of_neg (by simp [h]),
        List.dropWhile_cons_of_neg (by simp [hl])]
      exact ⟨rfl, rfl⟩

/-- If the first non-letter character of `cs` is a word character (a digit or
underscore), the leading word-character run of `cs` is not all letters. -/
theorem takeWhile_word_not_all_letter {cs : Str}
    (h : headIsWord (cs.dropWhile isAsciiLetter) = true) :
    (cs.takeWhile isWordChar).all isAsciiLetter = false := by
  induction cs with
  | nil => simp [headIsWord] at h
  | cons c cs' ih =>
    by_cases hl : isAsciiLetter c = true
    · rw [List.dropWhile_cons_of_pos hl] at h
      rw [List.takeWhile_cons_of_pos (isWordChar_of_letter hl)]
      simp [ih h]
    · rw [Bool.not_eq_true] at hl
      rw [List.dropWhile_cons_of_neg (by simp [hl]), headIsWord_cons] at h
      rw [List.takeWhile_cons_of_pos h]
      simp [hl]

theorem scanAux_nil (pw : Bool) : scanAux pw [] = [] := by
  rw [scanAux]

theorem scanAux_cons_skip {pw : Bool} {c : Char} (cs : Str)
    (h : (isAsciiLetter c && !pw) = false) :
    scanAux pw (c :: cs) = scanAux (isWordChar c) cs := by
  rw [scanAux, if_neg (by simp [h])]

theorem scanAux_cons_hit {c : Char} (cs : Str)
    (hl : isAsciiLetter c = true)
    (hb : headIsWord (cs.dropWhile isAsciiLetter) = false) :
    scanAux false (c :: cs)
      = (c :: cs.takeWhile isAsciiLetter)
          :: scanAux true (cs.dropWhile isAsciiLetter) := by
  rw [scanAux, if_pos (by simp [hl])]
  have hrev : ∃ a pre', (c :: cs.takeWhile isAsciiLetter).reverse = a :: pre' := by
    cases hrv : (c :: cs.takeWhile isAsciiLetter).reverse with
    | nil => exact absurd (congrArg List.length hrv) (by simp)
    | cons a pre' => exact ⟨a, pre', rfl⟩
  obtain ⟨a, pre', hrv⟩ := hrev
  rw [hrv, shrink_cons_of_boundary hb]
  rw [← hrv]
  simp

theorem scanAux_cons_miss {c : Char} (cs : Str)
    (hl : isAsciiLetter c = true)
    (hb : headIsWord (cs.dropWhile isAsciiLetter) = true) :
    scanAux false (c :: cs) = scanAux true cs := by
  rw [scanAux, if_pos (by simp [hl])]
  rw [shrink_none_of_words _ ?_ hb]
  · rw [isWordChar_of_letter hl]
  · intro a ha
    rw [List.mem_reverse] at ha
    rcases List.mem_cons.mp ha with rfl | ha
    · exact isWordChar_of_letter hl
    · exact isWordChar_of_letter (List.mem_takeWhile_imp ha)

/-- Scanning with a word character on the left first skips the current
word-character run: no `\b` can occur inside it. -/
theorem scanAux_true (s : Str) :
    scanAux true s = scanAux false (s.dropWhile isWordChar) := by
  induction s with
  | nil => rw [scanAux_nil, List.dropWhile_nil, scanAux_nil]
  | cons c cs ih =>
    rw [scanAux_cons_skip cs (by simp)]
    cases hw : isWordChar c with
    | true =>
      rw [List.dropWhile_cons_of_pos hw]
      exact ih
    | false =>
      rw [List.dropWhile_cons_of_neg (by simp [hw])]
      rw [scanAux_cons_skip cs (by simp [not_letter_of_not_word hw]), hw]

theorem runsBy_nil (p : Char → Bool) : runsBy p [] = [] := by
  rw [runsBy]

theorem runsBy_cons_pos {p : Char → Bool} {c : Char} (cs : Str) (h : p c = true) :
    runsBy p (c :: cs) = (c :: cs.takeWhile p) :: runsBy p (cs.dropWhile p) := by
  rw [runsBy, if_pos h]

theorem runsBy_cons_neg {p : Char → Bool} {c : Char} (cs : Str) (h : p c = false) :
    runsBy p (c :: cs) = runsBy p cs := by
  rw [runsBy, if_neg (by simp [h])]

/-- `re.findall(r'\b[a-zA-Z]+\b')` returns exactly the maximal word-character
runs that consist entirely of letters. -/
theorem scanAux_false_eq (s : Str) :
    scanAux false s
      = (runsBy isWordChar s).filter (fun r => r.all isAsciiLetter) := by
  induction s using runsBy.induct isWordChar with
  | case1 => rw [scanAux_nil, runsBy_nil]; rfl
  | case2 c cs hw ih =>
    rw [runsBy_cons_pos cs hw]
    cases hl : isAsciiLetter c with
    | false =>
      rw [scanAux_cons_skip cs (by simp [hl]), hw, scanAux_true,
        List.filter_cons_of_neg (by simp [hl])]
      exact ih
    | true =>
      cases hb : headIsWord (cs.dropWhile isAsciiLetter) with
      | false =>
        obtain ⟨ht, hd⟩ := takeWhile_word_eq_letter hb
        rw [scanAux_cons_hit cs hl hb, scanAux_true, dropWhile_word_eq_self hb,
          List.filter_cons_of_pos (by simp [hl, ht, all_takeWhile_self]), ht, ← hd]
        exact congrArg _ ih
      | true =>
        rw [scanAux_cons_miss cs hl hb, scanAux_true,
          List.filter_cons_of_neg (by simp [takeWhile_word_not_all_letter hb])]
        exact ih
  | case3 c cs hw ih =>
    have hw' : isWordChar c = false := by simpa using hw
    rw [runsBy_cons_neg cs hw',
      scanAux_cons_skip cs (by simp [not_letter_of_not_word hw']), hw']
    exact ih

/-- The tokenization that claim C2 describes: the maximal runs of ASCII
letters in the lowercased text (plain `[a-zA-Z]+` semantics, without the
`\b` anchors the code's pattern carries). -/
def specLetterRuns (text : Str) : List Str :=
  runsBy isAsciiLetter (lowerStr text)

/-- **C2 (counterexample).** On `"abc123def"` the code's tokenizer
`re.findall(r'\b[a-zA-Z]+\b', text.lower())` returns no token at all — the
`\b` anchors fail between letters and digits — while the claimed
`[a-zA-Z]+` semantics would return `abc` and `def`. -/
theorem findall_tokens_counterexample :
    findWords (lowerStr "abc123def".data) = [] ∧
    specLetterRuns "abc123def".data = ["abc".data, "def".data] := by
  constructor
  · simp [findWords, scanAux, shrink, headIsWord, isAsciiLetter, isWordChar,
      lowerStr, lowerChar]
  · simp [specLetterRuns, runsBy, isAsciiLetter, lowerStr, lowerChar]

/-- **C2 (amended).** The tokens used for frequency analysis are exactly the
maximal runs of word characters (ASCII letters, digits, underscore) of the
lowercased text that consist entirely of ASCII letters; a letter run adjacent
to a digit or an underscore yields no token. -/
theorem findall_tokens_amended (text : Str) :
    findWords (lowerStr text)
      = (runsBy isWordChar (lowerStr text)).filter
          (fun r => r.all isAsciiLetter) :=
  scanAux_false_eq _

/-- The fixed stop-word set of `analyze_content`. -/
def stop_words : List Str :=
  ["the".data, "a".data, "an".data, "and".data, "or".data, "but".data,
   "in".data, "on".data, "at".data, "to".data, "for".data, "of".data,
   "with".data, "by".data, "is".data, "are".data, "was".data, "were".data,
   "be".data, "been".data, "being".data, "have".data, "has".data, "had".data,
   "do".data, "does".data, "did".data, "will".data, "would".data,
   "could".data, "should".data, "may".data, "might".data, "must".data,
   "can".data, "this".data, "that".data, "these".data, "those".data,
   "i".data, "you".data, "he".data, "she".data, "it".data, "we".data,
   "they".data, "me".data, "him".data, "her".data, "us".data, "them".data]

/-- `[word for word in words if word not in stop_words and len(word) > 2]`
where `words = re.findall(r'\b[a-zA-Z]+\b', text.lower())`. -/
def filteredWords (text : Str) : List Str :=
  (findWords (lowerStr text)).filter
    fun w => !(stop_words.contains w) && decide (2 < w.length)

/-- First occurrences, in order: the iteration order of the `dict` underlying
`collections.Counter`. -/
def dedupFirstAux (seen : List Str) : List Str → List Str
  | [] => []
  | x :: xs =>
    if seen.contains x then dedupFirstAux seen xs
    else x :: dedupFirstAux (x :: seen) xs

def dedupFirst (l : List Str) : List Str := dedupFirstAux [] l

/-- `Counter(l).items()`: each distinct element in first-seen order, paired
with its multiplicity. -/
def counterItems (l : List Str) : List (Str × Nat) :=
  (dedupFirst l).map fun w => (w, l.count w)

/-- Stable insertion (descending by count): the new element goes before the
first strictly smaller count and after all counts ≥ its own. -/
def insertDesc (x : Str × Nat) : List (Str × Nat) → List (Str × Nat)
  | [] => [x]
  | y :: ys => if x.2 < y.2 then y :: insertDesc x ys else x :: y :: ys

/-- Stable sort, descending by count: the model of
`sorted(items, key=count, reverse=True)`, which is what
`Counter.most_common` computes (`heapq.nlargest` is documented as equivalent
to `sorted(...)[:n]` and is stable). -/
def sortDesc : List (Str × Nat) → List (Str × Nat)
  | [] => []
  | x :: xs => insertDesc x (sortDesc xs)

/-- `Counter(l).most_common(n)`. -/
def most_common (n : Nat) (l : List Str) : List (Str × Nat) :=
  (sortDesc (counterItems l)).take n

/-- `common_words = Counter(filtered_words).most_common(10)`. -/
def common_words (text : Str) : List (Str × Nat) :=
  most_common 10 (filteredWords text)

/-- Sortedness-with-stability relation: either strictly larger count on the
left, or equal counts together with the stability order `P`. -/
def SRel (P : Str × Nat → Str × Nat → Prop) (a b : Str × Nat) : Prop :=
  b.2 < a.2 ∨ (a.2 = b.2 ∧ P a b)

theorem mem_insertDesc {x z : Str × Nat} :
    ∀ {ys}, z ∈ insertDesc x ys → z = x ∨ z ∈ ys := by
  intro ys
  induction ys with
  | nil =>
    intro h
    rw [insertDesc] at h
    exact Or.inl (by simpa using h)
  | cons y ys ih =>
    intro h
    rw [insertDesc] at h
    by_cases hc : x.2 < y.2
    · rw [if_pos hc] at h
      rcases List.mem_cons.mp h with rfl | h2
      · exact Or.inr (List.mem_cons_self _ _)
      · rcases ih h2 with h3 | h3
        · exact Or.inl h3
        · exact Or.inr (List.mem_cons_of_mem _ h3)
    · rw [if_neg hc] at h
      rcases List.mem_cons.mp h with rfl | h2
      · exact Or.inl rfl
      · exact Or.inr h2

theorem insertDesc_perm (x : Str × Nat) :
    ∀ ys, List.Perm (insertDesc x ys) (x :: ys) := by
  intro ys
  induction ys with
  | nil => rw [insertDesc]
  | cons y ys ih =>
    rw [insertDesc]
    by_cases hc : x.2 < y.2
    · rw [if_pos hc]
      exact (ih.cons y).trans (List.Perm.swap x y ys)
    · rw [if_neg hc]

theorem sortDesc_perm : ∀ l, List.Perm (sortDesc l) l := by
  intro l
  induction l with
  | nil => rw [sortDesc]
  | cons x xs ih =>
    rw [sortDesc]
    exact (insertDesc_perm x (sortDesc xs)).trans (ih.cons x)

theorem insertDesc_pairwise {P : Str × Nat → Str × Nat → Prop} {x : Str × Nat} :
    ∀ {ys}, ys.Pairwise (SRel P) → (∀ z ∈ ys, x.2 = z.2 → P x z) →
      (insertDesc x ys).Pairwise (SRel P) := by
  intro ys
  induction ys with
  | nil =>
    intro _ _
    rw [insertDesc]
    exact List.pairwise_singleton _ _
  | cons y ys ih =>
    intro h1 h2
    obtain ⟨hy, hys⟩ := List.pairwise_cons.mp h1
    rw [insertDesc]
    by_cases hc : x.2 < y.2
    · rw [if_pos hc]
      refine List.pairwise_cons.mpr ⟨?_, ?_⟩
      · intro z hz
        rcases mem_insertDesc hz with rfl | hz2
        · exact Or.inl hc
        · exact hy z hz2
      · exact ih hys fun z hz hxz => h2 z (List.mem_cons_of_mem _ hz) hxz
    · rw [if_neg hc]
      refine List.pairwise_cons.mpr ⟨?_, h1⟩
      intro z hz
      rcases List.mem_cons.mp hz with rfl | hz2
      · rcases Nat.lt_or_ge z.2 x.2 with hlt | hge
        · exact Or.inl hlt
        · have heq : x.2 = z.2 := by omega
          exact Or.inr ⟨heq, h2 z (List.mem_cons_self _ _) heq⟩
      · rcases hy z hz2 with hlt | ⟨heq, _⟩
        · rcases Nat.lt_or_ge z.2 x.2 with hlt2 | hge2
          · exact Or.inl hlt2
          · have hxz : x.2 = z.2 := by omega
            exact Or.inr ⟨hxz, h2 z (List.mem_cons_of_mem _ hz2) hxz⟩
        · rcases Nat.lt_or_ge z.2 x.2 with hlt2 | hge2
          · exact Or.inl hlt2
          · have hxz : x.2 = z.2 := by omega
            exact Or.inr ⟨hxz, h2 z (List.mem_cons_of_mem _ hz2) hxz⟩

theorem sortDesc_pairwise {P : Str × Nat → Str × Nat → Prop} :
    ∀ {l}, (l.Pairwise fun a b => a.2 = b.2 → P a b) →
      (sortDesc l).Pairwise (SRel P) := by
  intro l
  induction l with
  | nil =>
    intro _
    rw [sortDesc]
    exact List.Pairwise.nil
  | cons x xs ih =>
    intro h
    obtain ⟨hx, hxs⟩ := List.pairwise_cons.mp h
    rw [sortDesc]
    refine insertDesc_pairwise (ih hxs) ?_
    intro z hz hxz
    exact hx z ((sortDesc_perm xs).mem_iff.mp hz) hxz

/-- Index of the first occurrence of `w` (length of the list when absent). -/
def firstIdx (w : Str) : List Str → Nat
  | [] => 0
  | x :: xs => if x = w then 0 else firstIdx w xs + 1

theorem firstIdx_cons_self (w : Str) (xs : List Str) :
    firstIdx w (w :: xs) = 0 := by
  rw [firstIdx, if_pos rfl]

theorem firstIdx_cons_ne (w x : Str) (xs : List Str) (h : x ≠ w) :
    firstIdx w (x :: xs) = firstIdx w xs + 1 := by
  rw [firstIdx, if_neg h]

theorem dedupFirstAux_spec :
    ∀ (xs seen : List Str),
      (dedupFirstAux seen xs).Pairwise (fun u v => firstIdx u xs < firstIdx v xs) ∧
      (∀ u ∈ dedupFirstAux seen xs, ¬ u ∈ seen ∧ u ∈ xs) := by
  intro xs
  induction xs with
  | nil =>
    intro seen
    rw [dedupFirstAux]
    exact ⟨List.Pairwise.nil, fun u hu => absurd hu (List.not_mem_nil u)⟩
  | cons x rest ih =>
    intro seen
    rw [dedupFirstAux]
    by_cases hx : seen.contains x
    · rw [if_pos hx]
      obtain ⟨hp, hm⟩ := ih seen
      refine ⟨?_, ?_⟩
      · refine List.Pairwise.imp_of_mem ?_ hp
        intro u v hu hv hlt
        have hux : u ≠ x := fun he =>
          (hm u hu).1 (he ▸ (List.mem_of_elem_eq_true hx))
        have hvx : v ≠ x := fun he =>
          (hm v hv).1 (he ▸ (List.mem_of_elem_eq_true hx))
        rw [firstIdx_cons_ne u x rest (Ne.symm hux),
          firstIdx_cons_ne v x rest (Ne.symm hvx)]
        omega
      · intro u hu
        exact ⟨(hm u hu).1, List.mem_cons_of_mem _ (hm u hu).2⟩
    · rw [if_neg hx]
      obtain ⟨hp, hm⟩ := ih (x :: seen)
      refine ⟨?_, ?_⟩
      · refine List.pairwise_cons.mpr ⟨?_, ?_⟩
        · intro v hv
          have hvx : v ≠ x := fun he =>
            (hm v hv).1 (he ▸ List.mem_cons_self x seen)
          rw [firstIdx_cons_self, firstIdx_cons_ne v x rest (Ne.symm hvx)]
          omega
        · refine List.Pairwise.imp_of_mem ?_ hp
          intro u v hu hv hlt
          have hux : u ≠ x := fun he =>
            (hm u hu).1 (he ▸ List.mem_cons_self x seen)
          have hvx : v ≠ x := fun he =>
            (hm v hv).1 (he ▸ List.mem_cons_self x seen)
          rw [firstIdx_cons_ne u x rest (Ne.symm hux),
            firstIdx_cons_ne v x rest (Ne.symm hvx)]
          omega
      · intro u hu
        rcases List.mem_cons.mp hu with rfl | hu2
        · exact ⟨fun hus => hx (List.elem_eq_true_of_mem hus),
            List.mem_cons_self _ _⟩
        · obtain ⟨h1, h2⟩ := hm u hu2
          exact ⟨fun hus => h1 (List.mem_cons_of_mem _ hus),
            List.mem_cons_of_mem _ h2⟩

theorem mem_dedupFirstAux :
    ∀ (xs seen : List Str) (u : Str), u ∈ xs → ¬ u ∈ seen →
      u ∈ dedupFirstAux seen xs := by
  intro xs
  induction xs with
  | nil => intro seen u hu _; exact absurd hu (List.not_mem_nil u)
  | cons x rest ih =>
    intro seen u hu hseen
    rw [dedupFirstAux]
    by_cases hx : seen.contains x
    · rw [if_pos hx]
      rcases List.mem_cons.mp hu with rfl | hu2
      · exact absurd (List.mem_of_elem_eq_true hx) hseen
      · exact ih seen u hu2 hseen
    · rw [if_neg hx]
      rcases List.mem_cons.mp hu with rfl | hu2
      · exact List.mem_cons_self _ _
      · by_cases hux : u = x
        · subst hux
          exact List.mem_cons_self _ _
        · refine List.mem_cons_of_mem _ (ih (x :: seen) u hu2 ?_)
          intro hmem
          rcases List.mem_cons.mp hmem with he | hmem2
          · exact hux he
          · exact hseen hmem2

theorem counterItems_pairwise (l : List Str) :
    (counterItems l).Pairwise
      (fun a b => a.2 = b.2 → firstIdx a.1 l < firstIdx b.1 l) := by
  unfold counterItems dedupFirst
  rw [List.pairwise_map]
  refine List.Pairwise.imp ?_ (dedupFirstAux_spec l []).1
  intro a b h _
  exact h

theorem counterItems_mem {l : List Str} {p : Str × Nat}
    (hp : p ∈ counterItems l) : p.1 ∈ l ∧ p.2 = l.count p.1 := by
  unfold counterItems at hp
  obtain ⟨w, hw, rfl⟩ := List.mem_map.mp hp
  exact ⟨(((dedupFirstAux_spec l []).2) w hw).2, rfl⟩

theorem counterItems_mem_of (l : List Str) (w : Str) (hw : w ∈ l) :
    (w, l.count w) ∈ counterItems l := by
  unfold counterItems dedupFirst
  exact List.mem_map_of_mem _ (mem_dedupFirstAux l [] w hw (List.not_mem_nil w))

/-- **C3.** `common_words` returns at most ten entries; they are sorted by
count descending with ties broken by order of first occurrence among the
filtered tokens; every entry is a surviving token paired with its exact
multiplicity; every surviving token left out has a count no larger than any
entry kept; and on `"cat cat dog dog dog bird"` the result is
`(dog, 3), (cat, 2), (bird, 1)`. -/
theorem common_words_top10 :
    (∀ text : Str,
      (common_words text).length ≤ 10 ∧
      (common_words text).Pairwise (fun a b =>
        b.2 < a.2 ∨ (a.2 = b.2 ∧
          firstIdx a.1 (filteredWords text) < firstIdx b.1 (filteredWords text))) ∧
      (∀ p ∈ common_words text,
        p.1 ∈ filteredWords text ∧ p.2 = (filteredWords text).count p.1) ∧
      (∀ w ∈ filteredWords text, ¬ w ∈ (common_words text).map Prod.fst →
        ∀ p ∈ common_words text, (filteredWords text).count w ≤ p.2)) ∧
    common_words "cat cat dog dog dog bird".data
      = [("dog".data, 3), ("cat".data, 2), ("bird".data, 1)] := by
  constructor
  · intro text
    set l := filteredWords text with hl
    have hsorted : (sortDesc (counterItems l)).Pairwise
        (SRel fun a b => firstIdx a.1 l < firstIdx b.1 l) :=
      sortDesc_pairwise (counterItems_pairwise l)
    have hcw : common_words text = (sortDesc (counterItems l)).take 10 := rfl
    refine ⟨?_, ?_, ?_, ?_⟩
    · rw [hcw]
      exact List.length_take_le 10 _
    · rw [hcw]
      exact List.Pairwise.sublist (List.take_sublist 10 _) hsorted
    · intro p hp
      rw [hcw] at hp
      have hp2 : p ∈ sortDesc (counterItems l) :=
        (List.take_sublist 10 _).mem hp
      have hp3 : p ∈ counterItems l := (sortDesc_perm _).mem_iff.mp hp2
      exact counterItems_mem hp3
    · intro w hw hnot p hp
      have hitem : (w, l.count w) ∈ counterItems l := counterItems_mem_of l w hw
      have hsortmem : (w, l.count w) ∈ sortDesc (counterItems l) :=
        (sortDesc_perm _).mem_iff.mpr hitem
      rw [← List.take_append_drop 10 (sortDesc (counterItems l))] at hsortmem
      rcases List.mem_append.mp hsortmem with hin | hin
      · exfalso
        rw [hcw] at hnot
        exact hnot (List.mem_map_of_mem Prod.fst hin)
      · rw [← List.take_append_drop 10 (sortDesc (counterItems l))] at hsorted
        have := (List.pairwise_append.mp hsorted).2.2 p (hcw ▸ hp) _ hin
        rcases this with hlt | ⟨heq, _⟩
        · exact Nat.le_of_lt hlt
        · exact Nat.le_of_eq heq.symm
  · have htok : findWords (lowerStr "cat cat dog dog dog bird".data)
        = ["cat".data, "cat".data, "dog".data, "dog".data, "dog".data,
           "bird".data] := by
      simp [findWords, scanAux, shrink, headIsWord, isAsciiLetter, isWordChar,
        lowerStr, lowerChar]
    have hfw : filteredWords "cat cat dog dog dog bird".data
        = ["cat".data, "cat".data, "dog".data, "dog".data, "dog".data,
           "bird".data] := by
      unfold filteredWords
      rw [htok]
      decide
    unfold common_words
    rw [hfw]
    decide

/-- Witness for C3: instantiating the membership conjunct at `(dog, 3)` on
the concrete input. -/
theorem common_words_top10_witness :
    ("dog".data, 3) ∈ common_words "cat cat dog dog dog bird".data ∧
    "dog".data ∈ filteredWords "cat cat dog dog dog bird".data ∧
    (filteredWords "cat cat dog dog dog bird".data).count "dog".data = 3 := by
  have hm : ("dog".data, 3) ∈ common_words "cat cat dog dog dog bird".data := by
    rw [common_words_top10.2]
    exact List.mem_cons_self _ _
  obtain ⟨h1, h2⟩ :=
    (common_words_top10.1 "cat cat dog dog dog bird".data).2.2.1 _ hm
  exact ⟨hm, h1, h2.symm⟩

/-- `str(n)` for the counters interpolated into the report. -/
def natRepr (n : Nat) : Str := (Nat.repr n).data

/-- `len(text.split())`: the number of maximal whitespace-free runs. -/
def wordCount (text : Str) : Nat :=
  (runsBy (fun c => !(isSpaceChar c)) text).length

/-- One line `- {word}: {count}` of the Most Common Words block. -/
def commonWordLine (p : Str × Nat) : Str :=
  "- ".data ++ p.1 ++ ": ".data ++ natRepr p.2

/-- `OCRProcessor.analyze_content`: the fixed message on empty input,
otherwise the f-string report (statistics, top words, 200-character preview,
separator, full text). -/
def analyze_content (text : Str) : Str :=
  if text = [] then "No text could be extracted from the file.".data
  else
    "\nTEXT ANALYSIS REPORT\n===================\n\nContent Type: ".data
    ++ detect_content_type text
    ++ "\n\nStatistics:\n- Word Count: ".data ++ natRepr (wordCount text)
    ++ "\n- Character Count: ".data ++ natRepr text.length
    ++ "\n- Line Count: ".data ++ natRepr (text.count '\n' + 1)
    ++ "\n\nMost Common Words:\n".data
    ++ List.intercalate ['\n'] ((common_words text).map commonWordLine)
    ++ "\n\nContent Preview (first 200 characters):\n".data
    ++ text.take 200
    ++ (if 200 < text.length then "...".data else [])
    ++ "\n\nFull Extracted Text:\n".data
    ++ List.replicate 50 '-'
    ++ "\n".data ++ text ++ "\n".data

/-- **C6.** On empty normalized text the report is exactly the fixed
"no text extracted" message, with none of the statistics, top-word, preview
or full-text sections. -/
theorem analyze_content_empty :
    analyze_content [] = "No text could be extracted from the file.".data ∧
    ¬ ("Statistics:".data <:+: analyze_content []) ∧
    ¬ ("Most Common Words:".data <:+: analyze_content []) ∧
    ¬ ("Content Preview".data <:+: analyze_content []) ∧
    ¬ ("Full Extracted Text:".data <:+: analyze_content []) := by
  refine ⟨rfl, ?_, ?_, ?_, ?_⟩ <;> decide

/-- The page header `--- Page {n} ---` (without the surrounding newlines). -/
def pageHeader (n : Nat) : Str :=
  "--- Page ".data ++ natRepr n ++ " ---".data

/-- The concatenation loop of `extract_text_from_pdf`: page `i` contributes
`"\n--- Page {i} ---\n" + page_text.strip() + "\n"`. -/
def pdfBody : Nat → List Str → Str
  | _, [] => []
  | i, t :: ts =>
    '\n' :: (pageHeader i ++ '\n' :: (stripStr t ++ '\n' :: pdfBody (i + 1) ts))

/-- `OCRProcessor.extract_text_from_pdf`, as a function of the per-page
recognized texts returned by the external OCR collaborator: build the
page-by-page concatenation starting at page 1, then strip. -/
def extract_text_from_pdf (pages : List Str) : Str :=
  stripStr (pdfBody 1 pages)

/-- The interleaved sequence header 1, stripped text 1, header 2, … that
claim C7 says appears in order in the result. -/
def headersWithTexts : Nat → List Str → List Str
  | _, [] => []
  | i, t :: ts => pageHeader i :: stripStr t :: headersWithTexts (i + 1) ts

/-- `containsInOrder parts s`: the `parts` occur in `s` as disjoint
contiguous substrings, in the given order. -/
def containsInOrder : List Str → Str → Prop
  | [], _ => True
  | p :: ps, s => ∃ pre suf, s = pre ++ p ++ suf ∧ containsInOrder ps suf

theorem containsInOrder_prepend {ps : List Str} {suf : Str} (x : Str)
    (h : containsInOrder ps suf) : containsInOrder ps (x ++ suf) := by
  cases ps with
  | nil => trivial
  | cons p ps' =>
    obtain ⟨pre, suf', heq, hrest⟩ := h
    refine ⟨x ++ pre, suf', ?_, hrest⟩
    rw [heq]
    simp [List.append_assoc]

theorem containsInOrder_append {as bs : List Str} :
    ∀ {u v : Str}, containsInOrder as u → containsInOrder bs v →
      containsInOrder (as ++ bs) (u ++ v) := by
  induction as with
  | nil =>
    intro u v _ hb
    exact containsInOrder_prepend u hb
  | cons a as' ih =>
    intro u v ha hb
    obtain ⟨pre, suf, heq, hrest⟩ := ha
    refine ⟨pre, suf ++ v, ?_, ih hrest hb⟩
    rw [heq]
    simp [List.append_assoc]

theorem containsInOrder_nil_cons {qs : List Str} {s : Str} :
    containsInOrder ([] :: qs) s ↔ containsInOrder qs s := by
  constructor
  · rintro ⟨pre, suf, rfl, hrest⟩
    have hpre := containsInOrder_prepend pre hrest
    simpa using hpre
  · intro h
    exact ⟨[], s, by simp, h⟩

theorem containsInOrder_body :
    ∀ (ts : List Str) (i : Nat),
      containsInOrder (headersWithTexts i ts) (pdfBody i ts) := by
  intro ts
  induction ts with
  | nil => intro i; trivial
  | cons t ts' ih =>
    intro i
    rw [headersWithTexts, pdfBody]
    refine ⟨['\n'], '\n' :: (stripStr t ++ '\n' :: pdfBody (i + 1) ts'), ?_, ?_⟩
    · simp
    · refine ⟨['\n'], '\n' :: pdfBody (i + 1) ts', ?_, ?_⟩
      · simp
      · exact containsInOrder_prepend ['\n'] (ih (i + 1))

theorem dropWhile_append_cases (p : Char → Bool) :
    ∀ (pre rest : Str),
      (pre ++ rest).dropWhile p = rest.dropWhile p ∨
      ∃ pre', (pre ++ rest).dropWhile p = pre' ++ rest := by
  intro pre
  induction pre with
  | nil => intro rest; exact Or.inl rfl
  | cons c pre' ih =>
    intro rest
    by_cases hc : p c
    · rw [List.cons_append, List.dropWhile_cons_of_pos hc]
      exact ih rest
    · rw [List.cons_append, List.dropWhile_cons_of_neg hc]
      exact Or.inr ⟨c :: pre', rfl⟩

/-- A part list whose nonempty parts start with a non-whitespace character
survives left-stripping. -/
theorem containsInOrder_dropWhile {qs : List Str} :
    ∀ {s : Str}, containsInOrder qs s →
      (∀ q ∈ qs, q = [] ∨ ∃ c r, q = c :: r ∧ isSpaceChar c = false) →
      containsInOrder qs (s.dropWhile isSpaceChar) := by
  induction qs with
  | nil => intro s _ _; trivial
  | cons q qs' ih =>
    intro s h hcond
    rcases hcond q (List.mem_cons_self _ _) with rfl | ⟨c, r, rfl, hc⟩
    · rw [containsInOrder_nil_cons] at h ⊢
      exact ih h fun q hq => hcond q (List.mem_cons_of_mem _ hq)
    · obtain ⟨pre, suf, rfl, hrest⟩ := h
      rw [List.append_assoc]
      rcases dropWhile_append_cases isSpaceChar pre ((c :: r) ++ suf) with
        heq | ⟨pre', heq⟩
      · rw [heq, List.cons_append, List.dropWhile_cons_of_neg (by simp [hc])]
        exact ⟨[], suf, by simp, hrest⟩
      · rw [heq]
        exact ⟨pre', suf, by simp, hrest⟩

theorem containsInOrder_reverse {qs : List Str} :
    ∀ {s : Str}, containsInOrder qs s →
      containsInOrder ((qs.map List.reverse).reverse) s.reverse := by
  induction qs with
  | nil => intro s _; trivial
  | cons q qs' ih =>
    intro s h
    obtain ⟨pre, suf, rfl, hrest⟩ := h
    have h1 : containsInOrder ((qs'.map List.reverse).reverse) suf.reverse :=
      ih hrest
    have h2 : containsInOrder [q.reverse] (q.reverse ++ pre.reverse) :=
      ⟨[], pre.reverse, by simp, trivial⟩
    have := containsInOrder_append h1 h2
    simpa [List.append_assoc] using this

theorem pageHeader_head (i : Nat) :
    pageHeader i = '-' :: ("-- Page ".data ++ natRepr i ++ " ---".data) := rfl

theorem pageHeader_last (i : Nat) : (pageHeader i).getLast? = some '-' := by
  unfold pageHeader
  rw [← List.head?_reverse]
  simp [List.reverse_append]

theorem headersWithTexts_head_cond :
    ∀ (ts : List Str) (i : Nat), ∀ q ∈ headersWithTexts i ts,
      q = [] ∨ ∃ c r, q = c :: r ∧ isSpaceChar c = false := by
  intro ts
  induction ts with
  | nil =>
    intro i q hq
    rw [headersWithTexts] at hq
    exact absurd hq (List.not_mem_nil q)
  | cons t ts' ih =>
    intro i q hq
    rw [headersWithTexts] at hq
    rcases List.mem_cons.mp hq with rfl | hq2
    · exact Or.inr ⟨'-', _, pageHeader_head i, by decide⟩
    · rcases List.mem_cons.mp hq2 with rfl | hq3
      · cases hst : stripStr t with
        | nil => exact Or.inl rfl
        | cons c r =>
          refine Or.inr ⟨c, r, rfl, ?_⟩
          exact stripStr_head? t c (by rw [hst]; rfl)
      · exact ih (i + 1) q hq3

theorem headersWithTexts_last_cond :
    ∀ (ts : List Str) (i : Nat), ∀ q ∈ headersWithTexts i ts,
      q = [] ∨ ∃ a, q.getLast? = some a ∧ isSpaceChar a = false := by
  intro ts
  induction ts with
  | nil =>
    intro i q hq
    rw [headersWithTexts] at hq
    exact absurd hq (List.not_mem_nil q)
  | cons t ts' ih =>
    intro i q hq
    rw [headersWithTexts] at hq
    rcases List.mem_cons.mp hq with rfl | hq2
    · exact Or.inr ⟨'-', pageHeader_last i, by decide⟩
    · rcases List.mem_cons.mp hq2 with rfl | hq3
      · cases hst : (stripStr t).getLast? with
        | none =>
          left
          cases hs : stripStr t with
          | nil => rfl
          | cons c r => rw [hs] at hst; simp [List.getLast?_concat] at hst
        | some a =>
          exact Or.inr ⟨a, rfl, stripStr_getLast? t a hst⟩
      · exact ih (i + 1) q hq3

theorem containsInOrder_stripStr {qs : List Str} {s : Str}
    (h : containsInOrder qs s)
    (hheads : ∀ q ∈ qs, q = [] ∨ ∃ c r, q = c :: r ∧ isSpaceChar c = false)
    (hlasts : ∀ q ∈ qs, q = [] ∨ ∃ a, q.getLast? = some a ∧ isSpaceChar a = false) :
    containsInOrder qs (stripStr s) := by
  have h1 := containsInOrder_dropWhile h hheads
  have h2 := containsInOrder_reverse h1
  have h3 : containsInOrder ((qs.map List.reverse).reverse)
      (((s.dropWhile isSpaceChar).reverse).dropWhile isSpaceChar) := by
    refine containsInOrder_dropWhile h2 ?_
    intro q' hq'
    rw [List.mem_reverse] at hq'
    obtain ⟨q, hq, rfl⟩ := List.mem_map.mp hq'
    rcases hlasts q hq with rfl | ⟨a, ha, hna⟩
    · exact Or.inl rfl
    · right
      refine ⟨a, q.reverse.tail, ?_, hna⟩
      have hh : q.reverse.head? = some a := by
        rw [List.head?_reverse]
        exact ha
      cases hqr : q.reverse with
      | nil => rw [hqr] at hh; simp at hh
      | cons b bs =>
        rw [hqr] at hh
        simp at hh
        simp [hh]
  have h4 := containsInOrder_reverse h3
  have hqs : (((qs.map List.reverse).reverse.map List.reverse).reverse) = qs := by
    simp [List.map_reverse, List.map_map, Function.comp]
  rw [hqs] at h4
  exact h4

/-- **C7.** The concatenated PDF text contains `--- Page 1 ---` through
`--- Page n ---` in increasing order, each followed by the corresponding
page's stripped text, in sequence; for pages "A","B","C" the result is the
expected three-page concatenation. -/
theorem extract_pdf_page_order :
    (∀ pages : List Str,
      containsInOrder (headersWithTexts 1 pages)
        (extract_text_from_pdf pages)) ∧
    extract_text_from_pdf ["A".data, "B".data, "C".data]
      = "--- Page 1 ---\nA\n\n--- Page 2 ---\nB\n\n--- Page 3 ---\nC".data := by
  constructor
  · intro pages
    exact containsInOrder_stripStr (containsInOrder_body pages 1)
      (headersWithTexts_head_cond pages 1) (headersWithTexts_last_cond pages 1)
  · decide

/-- Observable outcome of one `process_file` invocation: the returned Bool,
which extraction collaborators were invoked, whether the output file was
opened for writing, and what was written. -/
structure ProcOutcome where
  success : Bool
  calledPdf : Bool
  calledImage : Bool
  attemptedWrite : Bool
  written : Option Str

/-- `extract_text_from_image` through its try/except: the recognized text,
stripped, or the empty string when the collaborator fails. -/
def extract_text_from_image (ok : Bool) (recognized : Str) : Str :=
  if ok then stripStr recognized else []

/-- `extract_text_from_pdf` through its try/except: the page concatenation,
or the empty string when rasterization/recognition fails. -/
def extract_pdf_result (ok : Bool) (pages : List Str) : Str :=
  if ok then extract_text_from_pdf pages else []

/-- The image extensions accepted by `process_file`. -/
def image_extensions : List Str :=
  [".jpg".data, ".jpeg".data, ".png".data, ".bmp".data, ".tiff".data,
   ".gif".data]

/-- `OCRProcessor.process_file` over an abstract environment: `pathExists`
models `input_path.exists()`, `ext` models `input_path.suffix`, the `Ok`
flags and payloads model the external collaborators and the final
`open(...).write`.  Mirrors the source's control flow: missing file → False
before any extraction; extension dispatch (lowercased); unsupported
extension → False before any extraction or write; otherwise extract, clean,
analyze, write (write failure → False). -/
def process_file (pathExists : Bool) (ext : Str) (pdfOk : Bool)
    (pages : List Str) (imageOk : Bool) (imageText : Str)
    (writeOk : Bool) : ProcOutcome :=
  if ¬ pathExists then
    { success := false, calledPdf := false, calledImage := false,
      attemptedWrite := false, written := none }
  else
    let file_extension := lowerStr ext
    if file_extension = ".pdf".data then
      let extracted := extract_pdf_result pdfOk pages
      let report := analyze_content (clean_text extracted)
      { success := writeOk, calledPdf := true, calledImage := false,
        attemptedWrite := true,
        written := if writeOk then some report else none }
    else if file_extension ∈ image_extensions then
      let extracted := extract_text_from_image imageOk imageText
      let report := analyze_content (clean_text extracted)
      { success := writeOk, calledPdf := false, calledImage := true,
        attemptedWrite := true,
        written := if writeOk then some report else none }
    else
      { success := false, calledPdf := false, calledImage := false,
        attemptedWrite := false, written := none }

/-- **C8.** When the input path does not exist, `process_file` returns
failure without invoking either extraction collaborator (and, being a total
function of its environment, without raising): the whole outcome is the
early-exit record. -/
theorem process_file_missing_input (ext : Str) (pdfOk : Bool)
    (pages : List Str) (imageOk : Bool) (imageText : Str) (writeOk : Bool) :
    process_file false ext pdfOk pages imageOk imageText writeOk
      = { success := false, calledPdf := false, calledImage := false,
          attemptedWrite := false, written := none } := rfl

/-- **C10.** On the two pre-extraction failure paths — missing input or an
extension that is neither `.pdf` nor a supported image type — nothing is
ever written to the output path. -/
theorem process_file_no_write_on_early_failure (pathExists : Bool) (ext : Str)
    (pdfOk : Bool) (pages : List Str) (imageOk : Bool) (imageText : Str)
    (writeOk : Bool)
    (h : pathExists = false ∨
      (lowerStr ext ≠ ".pdf".data ∧ ¬ lowerStr ext ∈ image_extensions)) :
    (process_file pathExists ext pdfOk pages imageOk imageText
        writeOk).attemptedWrite = false ∧
    (process_file pathExists ext pdfOk pages imageOk imageText
        writeOk).written = none := by
  cases pathExists with
  | false => exact ⟨rfl, rfl⟩
  | true =>
    rcases h with h | ⟨h1, h2⟩
    · cases h
    · unfold process_file
      rw [if_neg (by simp), if_neg h1, if_neg h2]
      exact ⟨rfl, rfl⟩

/-- Witness for C10 at a concrete unsupported extension. -/
theorem process_file_no_write_witness :
    (lowerStr ".xyz".data ≠ ".pdf".data ∧
      ¬ lowerStr ".xyz".data ∈ image_extensions) ∧
    (process_file true ".xyz".data true [] true [] true).attemptedWrite
        = false ∧
    (process_file true ".xyz".data true [] true [] true).written = none :=
  ⟨by decide,
    process_file_no_write_on_early_failure true ".xyz".data true [] true []
      true (Or.inr (by decide))⟩

/-- Witness for C1 at a concrete input. -/
theorem detect_content_type_priority_witness :
    detect_content_type "we met on 01/02/2020".data
      = classifySpec "we met on 01/02/2020".data :=
  detect_content_type_priority.1 "we met on 01/02/2020".data

/-- Witness for C2's amended statement at the counterexample input. -/
theorem findall_tokens_amended_witness :
    findWords (lowerStr "abc123def".data)
      = (runsBy isWordChar (lowerStr "abc123def".data)).filter
          (fun r => r.all isAsciiLetter) :=
  findall_tokens_amended "abc123def".data

/-- Witness for C4 at a concrete input. -/
theorem clean_text_idempotent_witness :
    clean_text (clean_text "  a\n\n b  ".data) = clean_text "  a\n\n b  ".data :=
  clean_text_idempotent "  a\n\n b  ".data

/-- Witness for C5 at a concrete input. -/
theorem clean_text_normal_form_witness :
    (clean_text "  a\n\n b  ".data).length ≤ "  a\n\n b  ".data.length ∧
    ¬ (['\n', '\n'] <:+: clean_text "  a\n\n b  ".data) ∧
    ¬ ([' ', ' '] <:+: clean_text "  a\n\n b  ".data) :=
  ⟨(clean_text_normal_form "  a\n\n b  ".data).1,
   (clean_text_normal_form "  a\n\n b  ".data).2.1,
   (clean_text_normal_form "  a\n\n b  ".data).2.2.1⟩

/-- Witness for C6: the fixed-message equality. -/
theorem analyze_content_empty_witness :
    analyze_content [] = "No text could be extracted from the file.".data :=
  analyze_content_empty.1

/-- Witness for C7 at a one-page input. -/
theorem extract_pdf_page_order_witness :
    containsInOrder (headersWithTexts 1 ["A".data])
      (extract_text_from_pdf ["A".data]) :=
  extract_pdf_page_order.1 ["A".data]

/-- Witness for C8 at concrete collaborator inputs. -/
theorem process_file_missing_input_witness :
    process_file false ".pdf".data true ["A".data] true "B".data true
      = { success := false, calledPdf := false, calledImage := false,
          attemptedWrite := false, written := none } :=
  process_file_missing_input ".pdf".data true ["A".data] true "B".data true
